import Mathlib

/-!
Verification of the ledger component in `watermarker/converter/blockchain.py`.

The development shallowly embeds the `Blockchain` class: blocks and the
pending-transaction pool are Lean structures, the mutable object state is
passed explicitly, Python exceptions (`IndexError` on `chain[0]` /
`chain[-1]` for an empty chain, `requests` errors) are modelled with
`Option`, and the unbounded `while` loop of the proof-of-work search is
given explicit fuel.  Machine-level details (SHA-256, Python `str(int)`,
`json.dumps(..., sort_keys=True)` with its default separators and
`ensure_ascii` escaping) are implemented executably over `Nat`.
-/

/- ## SHA-256 over `Nat`
Bytes are `Nat < 256`, words are `Nat < 2^32`; overflow is explicit via
`m32`.  This models Python's `hashlib.sha256(...).hexdigest()`. -/

def m32 (x : Nat) : Nat := x % 4294967296

def rotr (n x : Nat) : Nat := m32 ((x >>> n) ||| (x <<< (32 - n)))

def bigS0 (x : Nat) : Nat := (rotr 2 x) ^^^ (rotr 13 x) ^^^ (rotr 22 x)

def bigS1 (x : Nat) : Nat := (rotr 6 x) ^^^ (rotr 11 x) ^^^ (rotr 25 x)

def smallS0 (x : Nat) : Nat := (rotr 7 x) ^^^ (rotr 18 x) ^^^ (x >>> 3)

def smallS1 (x : Nat) : Nat := (rotr 17 x) ^^^ (rotr 19 x) ^^^ (x >>> 10)

def chFn (x y z : Nat) : Nat := (x &&& y) ^^^ ((x ^^^ 4294967295) &&& z)

def majFn (x y z : Nat) : Nat := (x &&& y) ^^^ (x &&& z) ^^^ (y &&& z)

def sha256K : List Nat :=
  [1116352408, 1899447441, 3049323471, 3921009573, 961987163, 1508970993,
   2453635748, 2870763221, 3624381080, 310598401, 607225278, 1426881987,
   1925078388, 2162078206, 2614888103, 3248222580, 3835390401, 4022224774,
   264347078, 604807628, 770255983, 1249150122, 1555081692, 1996064986,
   2554220882, 2821834349, 2952996808, 3210313671, 3336571891, 3584528711,
   113926993, 338241895, 666307205, 773529912, 1294757372, 1396182291,
   1695183700, 1986661051, 2177026350, 2456956037, 2730485921, 2820302411,
   3259730800, 3345764771, 3516065817, 3600352804, 4094571909, 275423344,
   430227734, 506948616, 659060556, 883997877, 958139571, 1322822218,
   1537002063, 1747873779, 1955562222, 2024104815, 2227730452, 2361852424,
   2428436474, 2756734187, 3204031479, 3329325298]

structure Hash8 where
  h0 : Nat
  h1 : Nat
  h2 : Nat
  h3 : Nat
  h4 : Nat
  h5 : Nat
  h6 : Nat
  h7 : Nat

def sha256H0 : Hash8 :=
  ⟨1779033703, 3144134277, 1013904242, 2773480762,
   1359893119, 2600822924, 528734635, 1541459225⟩

def be64 (n : Nat) : List Nat :=
  [(n >>> 56) &&& 255, (n >>> 48) &&& 255, (n >>> 40) &&& 255, (n >>> 32) &&& 255,
   (n >>> 24) &&& 255, (n >>> 16) &&& 255, (n >>> 8) &&& 255, n &&& 255]

def padMsg (msg : List Nat) : List Nat :=
  let L := msg.length
  let z := (119 - (L % 64)) % 64
  msg ++ [128] ++ List.replicate z 0 ++ be64 (8 * L)

def bytesToWords : List Nat → List Nat
  | a :: b :: c :: d :: rest => (a * 16777216 + b * 65536 + c * 256 + d) :: bytesToWords rest
  | _ => []

def extendStep (w : List Nat) (i : Nat) : List Nat :=
  w ++ [m32 (smallS1 (w.getD (i - 2) 0) + w.getD (i - 7) 0 +
             smallS0 (w.getD (i - 15) 0) + w.getD (i - 16) 0)]

def extendW (w : List Nat) : List Nat :=
  (List.range' 16 48).foldl extendStep w

def roundStep (st : Hash8) (kw : Nat × Nat) : Hash8 :=
  let t1 := m32 (st.h7 + bigS1 st.h4 + chFn st.h4 st.h5 st.h6 + kw.1 + kw.2)
  let t2 := m32 (bigS0 st.h0 + majFn st.h0 st.h1 st.h2)
  ⟨m32 (t1 + t2), st.h0, st.h1, st.h2, m32 (st.h3 + t1), st.h4, st.h5, st.h6⟩

def compress (h : Hash8) (block : List Nat) : Hash8 :=
  let ws := extendW (bytesToWords block)
  let st := (sha256K.zip ws).foldl roundStep h
  ⟨m32 (h.h0 + st.h0), m32 (h.h1 + st.h1), m32 (h.h2 + st.h2), m32 (h.h3 + st.h3),
   m32 (h.h4 + st.h4), m32 (h.h5 + st.h5), m32 (h.h6 + st.h6), m32 (h.h7 + st.h7)⟩

def sha256Words (msg : List Nat) : Hash8 :=
  let padded := padMsg msg
  (List.range (padded.length / 64)).foldl
    (fun h i => compress h ((padded.drop (64 * i)).take 64)) sha256H0

def hexTable : List Char := "0123456789abcdef".data

def hexDigit (n : Nat) : Char := hexTable.getD (n % 16) '0'

def wordHex (w : Nat) : List Char :=
  [hexDigit (w >>> 28), hexDigit (w >>> 24), hexDigit (w >>> 20), hexDigit (w >>> 16),
   hexDigit (w >>> 12), hexDigit (w >>> 8), hexDigit (w >>> 4), hexDigit w]

/-- Hex digest of a byte string, as the 64-character list produced by
Python's `hashlib.sha256(bytes).hexdigest()`. -/
def sha256hex (msg : List Nat) : List Char :=
  let h := sha256Words msg
  wordHex h.h0 ++ wordHex h.h1 ++ wordHex h.h2 ++ wordHex h.h3 ++
  wordHex h.h4 ++ wordHex h.h5 ++ wordHex h.h6 ++ wordHex h.h7

/- ## Python text encodings -/

/-- UTF-8 encoding of one character, as in Python's `str.encode()`. -/
def utf8Char (c : Char) : List Nat :=
  let n := c.toNat
  if n < 128 then [n]
  else if n < 2048 then [192 ||| (n >>> 6), 128 ||| (n &&& 63)]
  else if n < 65536 then [224 ||| (n >>> 12), 128 ||| ((n >>> 6) &&& 63), 128 ||| (n &&& 63)]
  else [240 ||| (n >>> 18), 128 ||| ((n >>> 12) &&& 63), 128 ||| ((n >>> 6) &&& 63),
        128 ||| (n &&& 63)]

def strBytes (s : String) : List Nat := (s.data.map utf8Char).flatten

/-- Python `str` of an `int`: decimal digits, with a leading minus sign for
negative values. -/
def pyIntStr (n : Int) : String :=
  if n < 0 then "-" ++ Nat.repr n.natAbs else Nat.repr n.natAbs

/- ## JSON values and `json.dumps(..., sort_keys=True)`
Objects are association lists, so the insertion order of the keys of the
underlying Python `dict` is visible; `dumps` sorts the fields by key, so
the rendered text does not depend on that order (proved below). -/

inductive J where
  | s (v : String)
  | i (v : Int)
  | a (l : List J)
  | o (l : List (String × J))

def hex4 (n : Nat) : List Char :=
  [hexDigit (n >>> 12), hexDigit (n >>> 8), hexDigit (n >>> 4), hexDigit n]

/-- Escaping of one character inside a JSON string literal, following
`json.dumps` with its default `ensure_ascii=True`. -/
def escChar (c : Char) : String :=
  let n := c.toNat
  if c = '"' then "\\\""
  else if c = '\\' then "\\\\"
  else if c = '\n' then "\\n"
  else if c = '\r' then "\\r"
  else if c = '\t' then "\\t"
  else if n = 8 then "\\b"
  else if n = 12 then "\\f"
  else if n < 32 then "\\u" ++ String.mk (hex4 n)
  else if n < 127 then String.singleton c
  else if n < 65536 then "\\u" ++ String.mk (hex4 n)
  else "\\u" ++ String.mk (hex4 (55296 + ((n - 65536) >>> 10))) ++
       "\\u" ++ String.mk (hex4 (56320 + ((n - 65536) &&& 1023)))

def qstr (s : String) : String := "\"" ++ String.join (s.data.map escChar) ++ "\""

def keyLe (p q : String × String) : Prop := p.1 ≤ q.1

instance : DecidableRel keyLe := fun p q => inferInstanceAs (Decidable (p.1 ≤ q.1))

instance : IsTotal (String × String) keyLe := ⟨fun p q => le_total p.1 q.1⟩

instance : IsTrans (String × String) keyLe := ⟨fun _ _ _ h h' => le_trans h h'⟩

/-- Sorting of an object's (key, rendered value) pairs by key.  CPython's
`json` encoder emits `sorted(dict.items())`; on a `dict` the keys are
distinct, so the comparison never reaches the values and this is exactly a
sort by key. -/
def sortPairs (l : List (String × String)) : List (String × String) :=
  List.insertionSort keyLe l

def commaJoin (l : List String) : String := String.intercalate ", " l

def pairStr (p : String × String) : String := qstr p.1 ++ ": " ++ p.2

/-- Embedding of `json.dumps(x, sort_keys=True)` (default separators
`', '` and `': '`). -/
def dumps : J → String
  | J.s v => qstr v
  | J.i v => pyIntStr v
  | J.a l => "[" ++ commaJoin (l.attach.map (fun x => dumps x.1)) ++ "]"
  | J.o l =>
    "\x7b" ++
      commaJoin ((sortPairs (l.attach.map (fun x => (x.1.1, dumps x.1.2)))).map pairStr) ++
    "\x7d"
decreasing_by
  all_goals
    simp_wf
  all_goals
    have h1 := List.sizeOf_lt_of_mem x.2
  all_goals
    try rcases x with ⟨⟨k, v⟩, hx⟩
  all_goals
    simp_all
  all_goals
    omega

/-- Embedding of `Blockchain.hash` applied to an arbitrary JSON record:
`sha256(json.dumps(x, sort_keys=True).encode()).hexdigest()`. -/
def jsonHash (x : J) : String := String.mk (sha256hex (strBytes (dumps x)))

/- ## Data model -/

/-- Metadata argument accepted by `add_transaction` (the keys the code
reads out of the `metadata` dict). -/
structure TxMeta where
  image_hash : String
  message_hash : String
  created_at : String
  file_size : Int
deriving DecidableEq

/-- Metadata fields stored inside a watermark transaction. -/
structure TxMetaStored where
  img_hash : String
  msg_hash : String
  timestamp : String
  size : Int
deriving DecidableEq

/-- A pending or mined transaction, as built by `add_transaction`. -/
structure Tx where
  s : String
  r : String
  a : Int
  type : String
  meta : Option TxMetaStored
deriving DecidableEq

/-- A block record, with the five keys `create_block` inserts. -/
structure Block where
  index : Nat
  timestamp : String
  proof : Int
  previous_hash : String
  transactions : List Tx
deriving DecidableEq

/-- The `Blockchain` object state.  The Python attributes
`_cached_previous_block` and `_cached_previous_hash` keep their names
minus the leading underscore. -/
structure Blockchain where
  chain : List Block
  transactions : List Tx
  difficulty : Nat
  nodes : List String
  cached_previous_block : Option Block
  cached_previous_hash : Option String
deriving DecidableEq

def txMetaFields (m : TxMetaStored) : List (String × J) :=
  [("img_hash", J.s m.img_hash), ("msg_hash", J.s m.msg_hash),
   ("timestamp", J.s m.timestamp), ("size", J.i m.size)]

/-- The transaction dict, fields in insertion order (`dict.update` appends
the metadata keys after the base keys). -/
def txToJson (t : Tx) : J :=
  J.o ([("s", J.s t.s), ("r", J.s t.r), ("a", J.i t.a), ("type", J.s t.type)] ++
    (match t.meta with | none => [] | some m => txMetaFields m))

/-- The block dict, fields in the insertion order of `create_block`. -/
def blockToJson (b : Block) : J :=
  J.o [("index", J.i b.index), ("timestamp", J.s b.timestamp), ("proof", J.i b.proof),
       ("previous_hash", J.s b.previous_hash),
       ("transactions", J.a (b.transactions.map txToJson))]

namespace Blockchain

/-- Embedding of `Blockchain.hash` on a block:
`sha256(json.dumps(block, sort_keys=True).encode()).hexdigest()`. -/
def hash (block : Block) : String := jsonHash (blockToJson block)

/-- Embedding of `Blockchain.create_block`.  The nondeterministic
`str(datetime.datetime.now())` timestamp is passed in as `ts`.  Returns the
new block and the updated object state. -/
def create_block (self : Blockchain) (proof : Int) (previous_hash : String) (ts : String) :
    Block × Blockchain :=
  let block : Block := ⟨self.chain.length + 1, ts, proof, previous_hash, self.transactions⟩
  (block,
   { self with transactions := [], chain := self.chain ++ [block],
               cached_previous_block := none, cached_previous_hash := none })

/-- Embedding of `Blockchain.__init__`: empty chain and pool, then the
genesis block via `create_block(proof=1, previous_hash='0')`. -/
def init (difficulty : Nat) (ts : String) : Blockchain :=
  let st : Blockchain := ⟨[], [], difficulty, [], none, none⟩
  (st.create_block 1 "0" ts).2

/-- Embedding of `Blockchain.get_previous_block`; `none` models the
`IndexError` of `self.chain[-1]` on an empty chain. -/
def get_previous_block (self : Blockchain) : Option (Block × Blockchain) :=
  match self.cached_previous_block with
  | some b => some (b, self)
  | none =>
    match self.chain.getLast? with
    | none => none
    | some b => some (b, { self with cached_previous_block := some b })

/-- Embedding of `Blockchain.get_previous_hash_cached`. -/
def get_previous_hash_cached (self : Blockchain) : Option (String × Blockchain) :=
  match self.cached_previous_hash with
  | some h => some (h, self)
  | none =>
    match self.get_previous_block with
    | none => none
    | some (b, st) => some (hash b, { st with cached_previous_hash := some (hash b) })

/-- Digest computed by both the proof-of-work search and the validator:
`sha256(str(new_proof ** 2 - previous_proof ** 2).encode()).hexdigest()`
(the squares `x ** 2` are written `x * x`). -/
def pow_digest (new_proof previous_proof : Int) : List Char :=
  sha256hex (strBytes (pyIntStr (new_proof * new_proof - previous_proof * previous_proof)))

/-- The check `hash_operation[:difficulty] == '0' * difficulty`. -/
def pow_ok (difficulty : Nat) (new_proof previous_proof : Int) : Bool :=
  (pow_digest new_proof previous_proof).take difficulty == List.replicate difficulty '0'

/-- The `while not check_proof` loop of `proof_of_work`, with explicit
fuel; `none` models non-termination within the given fuel. -/
def proof_of_work_loop (difficulty : Nat) (previous_proof : Int) :
    Nat → Int → Option Int
  | 0, _ => none
  | fuel + 1, new_proof =>
    if pow_ok difficulty new_proof previous_proof then some new_proof
    else proof_of_work_loop difficulty previous_proof fuel (new_proof + 1)

/-- Embedding of `Blockchain.proof_of_work` (the search starts at
`new_proof = 1`). -/
def proof_of_work (self : Blockchain) (fuel : Nat) (previous_proof : Int) : Option Int :=
  proof_of_work_loop self.difficulty previous_proof fuel 1

/-- The `while block_index < len(chain)` loop of `is_chain_valid`,
carrying `previous_block`. -/
def valid_loop (difficulty : Nat) : Block → List Block → Bool
  | _, [] => true
  | previous_block, block :: rest =>
    if block.previous_hash ≠ hash previous_block then false
    else if ¬ (pow_ok difficulty block.proof previous_block.proof) then false
    else valid_loop difficulty block rest

/-- Embedding of `Blockchain.is_chain_valid`; `none` models the
`IndexError` of `chain[0]` on an empty candidate. -/
def is_chain_valid (self : Blockchain) (chain : List Block) : Option Bool :=
  match chain with
  | [] => none
  | b0 :: rest => some (valid_loop self.difficulty b0 rest)

/-- The transaction record built by `add_transaction` (sender and receiver
truncated to 8 characters, metadata strings to 16). -/
def mkTransaction (sender receiver : String) (amount : Int) (metadata : Option TxMeta) : Tx :=
  let base : Tx :=
    ⟨if sender.length > 8 then ⟨sender.data.take 8⟩ else sender,
     if receiver.length > 8 then ⟨receiver.data.take 8⟩ else receiver,
     amount,
     (match metadata with | some _ => "watermark" | none => "mining"),
     none⟩
  match metadata with
  | none => base
  | some m =>
    { base with meta := some ⟨⟨m.image_hash.data.take 16⟩, ⟨m.message_hash.data.take 16⟩,
                             m.created_at, m.file_size⟩ }

/-- Embedding of `Blockchain.add_transaction`: append to the pool, then
return `previous_block['index'] + 1` from the (possibly cached) previous
block. -/
def add_transaction (self : Blockchain) (sender receiver : String) (amount : Int)
    (metadata : Option TxMeta) : Option (Nat × Blockchain) :=
  let t := mkTransaction sender receiver amount metadata
  let st := { self with transactions := self.transactions ++ [t] }
  match st.get_previous_block with
  | none => none
  | some (pb, st2) => some (pb.index + 1, st2)

/-- Embedding of `Blockchain.batch_mine_pending_transactions`. -/
def batch_mine_pending_transactions (self : Blockchain) (fuel : Nat) (ts : String) :
    Option (Option Block × Blockchain) :=
  if self.transactions = [] then some (none, self)
  else
    match self.get_previous_block with
    | none => none
    | some (pb, st1) =>
      match st1.proof_of_work fuel pb.proof with
      | none => none
      | some proof =>
        match st1.get_previous_hash_cached with
        | none => none
        | some (ph, st2) =>
          let pr := st2.create_block proof ph ts
          some (some pr.1, pr.2)

end Blockchain

/-- Outcome of `requests.get(f'http://{node}/get_chain')` for one peer:
either a response carrying a status code and the parsed `length` and
`chain` fields, or `err` for a raised exception (connection error or
timeout). -/
inductive PeerResp where
  | ok (status : Nat) (length : Int) (chain : List Block)
  | err
deriving DecidableEq

namespace Blockchain

/-- The `for node in network` loop of `replace_chain`, iterating over the
fetched responses in order.  The outer `Option` is `none` when an
exception escapes (a failed fetch, or `is_chain_valid` on an empty peer
chain); the inner value is the final `longest_chain` local. -/
def replace_chain_loop (self : Blockchain) (max_length : Int)
    (longest : Option (List Block)) : List PeerResp → Option (Option (List Block))
  | [] => some longest
  | PeerResp.err :: _ => none
  | PeerResp.ok status len c :: rest =>
    if status = 200 then
      if len > max_length then
        match self.is_chain_valid c with
        | none => none
        | some true => replace_chain_loop self len (some c) rest
        | some false => replace_chain_loop self max_length longest rest
      else replace_chain_loop self max_length longest rest
    else replace_chain_loop self max_length longest rest

/-- Embedding of `Blockchain.replace_chain`.  The first component is
`some b` for a normal return of `b`, `none` when an exception escaped (in
which case the state is unchanged, since `self.chain` is only assigned at
the very end).  `if longest_chain:` is Python truthiness: `None` and the
empty list are both falsy. -/
def replace_chain (self : Blockchain) (responses : List PeerResp) :
    Option Bool × Blockchain :=
  match self.replace_chain_loop (self.chain.length : Int) none responses with
  | none => (none, self)
  | some none => (some false, self)
  | some (some c) =>
    if c = [] then (some false, self) else (some true, { self with chain := c })

end Blockchain

/- ## Operation sequences (for claims about chains built purely through
the ledger's own operations) -/

inductive LedgerOp where
  | submit (sender receiver : String) (amount : Int) (metadata : Option TxMeta)
  | mine (fuel : Nat) (ts : String)

def runOp (st : Blockchain) : LedgerOp → Option Blockchain
  | LedgerOp.submit sender receiver amount m =>
    (st.add_transaction sender receiver amount m).map Prod.snd
  | LedgerOp.mine fuel ts =>
    (st.batch_mine_pending_transactions fuel ts).map Prod.snd

def runOps (st : Blockchain) : List LedgerOp → Option Blockchain
  | [] => some st
  | op :: rest =>
    match runOp st op with
    | none => none
    | some st1 => runOps st1 rest

/- ## Specification-side predicates -/

/-- Each block links to its predecessor by hash and by a proof pair
passing the difficulty check. -/
def LinkedFrom (d : Nat) : Block → List Block → Prop
  | _, [] => True
  | p, b :: rest =>
    b.previous_hash = Blockchain.hash p ∧ Blockchain.pow_ok d b.proof p.proof = true ∧
    LinkedFrom d b rest

/-- The two cache slots are either empty or consistent with the current
top of the chain. -/
def CacheOk (st : Blockchain) : Prop :=
  (∀ b, st.cached_previous_block = some b → st.chain.getLast? = some b) ∧
  (∀ h, st.cached_previous_hash = some h →
    ∃ b, st.chain.getLast? = some b ∧ h = Blockchain.hash b)

/- ## Structural equality of JSON records up to field insertion order -/

mutual

inductive EqJ : J → J → Prop where
  | s (v : String) : EqJ (J.s v) (J.s v)
  | i (v : Int) : EqJ (J.i v) (J.i v)
  | a : EqJList l₁ l₂ → EqJ (J.a l₁) (J.a l₂)
  | o (g : List (String × J)) : List.Perm l₁ g → EqJFields g l₂ →
      (l₂.map Prod.fst).Nodup → EqJ (J.o l₁) (J.o l₂)

inductive EqJList : List J → List J → Prop where
  | nil : EqJList [] []
  | cons : EqJ x y → EqJList xs ys → EqJList (x :: xs) (y :: ys)

inductive EqJFields : List (String × J) → List (String × J) → Prop where
  | nil : EqJFields [] []
  | cons (k : String) : EqJ v w → EqJFields t u → EqJFields ((k, v) :: t) ((k, w) :: u)

end

/-- Invariant of states reachable through the ledger's own operations:
the chain is a nonempty hash-linked sequence and the cache is consistent. -/
def ReachInv (st : Blockchain) : Prop :=
  (∃ b0 rest, st.chain = b0 :: rest ∧ LinkedFrom st.difficulty b0 rest) ∧ CacheOk st

/- ## Concrete states used by witnesses and counterexamples -/

def tsW : String := "2026-01-01 10:00:00.000000"

def tsW2 : String := "2026-01-01 10:00:01.000000"

def genesisW : Block := ⟨1, tsW, 1, "0", []⟩

def txW : Tx := ⟨"alice", "bob", 5, "mining", none⟩

/-- A difficulty-0 ledger holding one pending transaction. -/
def stW : Blockchain := ⟨[genesisW], [txW], 0, [], none, none⟩

/-- The block `batch_mine_pending_transactions` appends to `stW`. -/
def blockW : Block := ⟨2, tsW2, 1, Blockchain.hash genesisW, [txW]⟩

/-- The state after mining `stW`. -/
def stW' : Blockchain := ⟨[genesisW, blockW], [], 0, [], none, none⟩

/-- An arbitrary single block reported by a peer. -/
def peerBlockW : Block := ⟨7, tsW, 3, "p", []⟩

/-- A difficulty-0 ledger whose hash cache slot holds a stale string. -/
def stStale : Blockchain := ⟨[genesisW], [txW], 0, [], none, some "stale"⟩

/-- A difficulty-0 ledger whose cache slots are populated (as after
`add_transaction` plus `get_previous_hash_cached`). -/
def stCache : Blockchain := ⟨[genesisW], [], 0, [], some genesisW, some (Blockchain.hash genesisW)⟩

/-- The state `stCache` after adopting the peer chain `[peerBlockW]`:
only the chain changed, the cache slots are untouched (and now stale). -/
def stCacheAfter : Blockchain :=
  ⟨[peerBlockW], [], 0, [], some genesisW, some (Blockchain.hash genesisW)⟩

/- ## Helper lemmas -/

theorem hash_len (b : Block) : (Blockchain.hash b).length = 64 := by
  simp [Blockchain.hash, jsonHash, sha256hex, wordHex, String.length]

theorem pow_loop_spec (d : Nat) (pp : Int) :
    ∀ (fuel : Nat) (start p : Int),
      Blockchain.proof_of_work_loop d pp fuel start = some p →
      Blockchain.pow_ok d p pp = true ∧ start ≤ p ∧
      ∀ q : Int, start ≤ q → q < p → Blockchain.pow_ok d q pp = false := by
  intro fuel
  induction fuel with
  | zero =>
    intro start p h
    simp [Blockchain.proof_of_work_loop] at h
  | succ n ih =>
    intro start p h
    simp only [Blockchain.proof_of_work_loop] at h
    by_cases hc : Blockchain.pow_ok d start pp
    · rw [if_pos hc] at h
      obtain rfl : start = p := by exact Option.some.inj h
      exact ⟨hc, le_refl _, fun q hq1 hq2 => absurd (lt_of_le_of_lt hq1 hq2) (lt_irrefl _)⟩
    · rw [if_neg hc] at h
      obtain ⟨h1, h2, h3⟩ := ih (start + 1) p h
      refine ⟨h1, by omega, fun q hq1 hq2 => ?_⟩
      by_cases hqs : q = start
      · subst hqs
        simpa using hc
      · exact h3 q (by omega) hq2

theorem valid_loop_iff (d : Nat) :
    ∀ (l : List Block) (p : Block),
      Blockchain.valid_loop d p l = true ↔ LinkedFrom d p l := by
  intro l
  induction l with
  | nil =>
    intro p
    simp [Blockchain.valid_loop, LinkedFrom]
  | cons b rest ih =>
    intro p
    simp only [Blockchain.valid_loop, LinkedFrom]
    by_cases h1 : b.previous_hash = Blockchain.hash p
    · by_cases h2 : Blockchain.pow_ok d b.proof p.proof = true
      · simp [h1, h2, ih]
      · simp [h1, h2]
    · simp [h1]

theorem LinkedFrom_append (d : Nat) :
    ∀ (l : List Block) (p q b : Block),
      LinkedFrom d p l → l.getLastD p = q →
      b.previous_hash = Blockchain.hash q → Blockchain.pow_ok d b.proof q.proof = true →
      LinkedFrom d p (l ++ [b]) := by
  intro l
  induction l with
  | nil =>
    intro p q b _ hq hb hp
    simp only [List.getLastD] at hq
    subst hq
    exact ⟨hb, hp, trivial⟩
  | cons x rest ih =>
    intro p q b hl hq hb hp
    obtain ⟨hx1, hx2, hlinks⟩ := hl
    rw [List.getLastD_cons] at hq
    exact ⟨hx1, hx2, ih x q b hlinks hq hb hp⟩


theorem getLast?_cons_eq (b0 : Block) (rest : List Block) :
    (b0 :: rest).getLast? = some (rest.getLastD b0) := by
  induction rest generalizing b0 with
  | nil => simp
  | cons x rest ih =>
    rw [List.getLast?_cons_cons, List.getLastD_cons]
    exact ih x

theorem get_previous_block_frame (st : Blockchain) (pb : Block) (st1 : Blockchain)
    (h : st.get_previous_block = some (pb, st1)) :
    st1.chain = st.chain ∧ st1.transactions = st.transactions ∧
    st1.difficulty = st.difficulty ∧ st1.cached_previous_hash = st.cached_previous_hash ∧
    st1.nodes = st.nodes ∧ st1.cached_previous_block = some pb := by
  unfold Blockchain.get_previous_block at h
  split at h
  · rename_i b hcb
    simp only [Option.some.injEq, Prod.mk.injEq] at h
    obtain ⟨rfl, rfl⟩ := h
    simp_all
  · rename_i hcb
    split at h
    · exact absurd h (by simp)
    · rename_i b hlast
      simp only [Option.some.injEq, Prod.mk.injEq] at h
      obtain ⟨rfl, rfl⟩ := h
      simp_all

theorem get_previous_block_top (st : Blockchain) (pb : Block) (st1 : Blockchain)
    (hc : CacheOk st) (h : st.get_previous_block = some (pb, st1)) :
    st.chain.getLast? = some pb ∧ CacheOk st1 := by
  have hfr := get_previous_block_frame st pb st1 h
  unfold Blockchain.get_previous_block at h
  split at h
  · rename_i b hcb
    simp only [Option.some.injEq, Prod.mk.injEq] at h
    obtain ⟨rfl, rfl⟩ := h
    exact ⟨hc.1 _ hcb, hc⟩
  · rename_i hcb
    split at h
    · exact absurd h (by simp)
    · rename_i b hlast
      simp only [Option.some.injEq, Prod.mk.injEq] at h
      obtain ⟨rfl, rfl⟩ := h
      refine ⟨hlast, fun b' hb' => ?_, fun h' hh' => hc.2 h' hh'⟩
      simp only [Option.some.injEq] at hb'
      subst hb'
      exact hlast

theorem get_previous_block_total (st : Blockchain) (hne : st.chain ≠ []) :
    ∃ pb st1, st.get_previous_block = some (pb, st1) := by
  unfold Blockchain.get_previous_block
  rcases hcb : st.cached_previous_block with _ | b
  · rcases hlast : st.chain.getLast? with _ | b
    · exact absurd (List.getLast?_eq_none_iff.mp hlast) hne
    · exact ⟨b, _, rfl⟩
  · exact ⟨b, st, rfl⟩

theorem get_previous_hash_frame (st : Blockchain) (ph : String) (st2 : Blockchain)
    (h : st.get_previous_hash_cached = some (ph, st2)) :
    st2.chain = st.chain ∧ st2.transactions = st.transactions ∧
    st2.difficulty = st.difficulty ∧ st2.nodes = st.nodes ∧
    st2.cached_previous_hash = some ph := by
  unfold Blockchain.get_previous_hash_cached at h
  split at h
  · rename_i hh hch
    simp only [Option.some.injEq, Prod.mk.injEq] at h
    obtain ⟨rfl, rfl⟩ := h
    simp_all
  · rename_i hch
    split at h
    · exact absurd h (by simp)
    · rename_i b st1 hgb
      obtain ⟨hf1, hf2, hf3, hf4, hf5, hf6⟩ := get_previous_block_frame st b st1 hgb
      simp only [Option.some.injEq, Prod.mk.injEq] at h
      obtain ⟨rfl, rfl⟩ := h
      simp_all

theorem get_previous_hash_top (st : Blockchain) (pb : Block) (ph : String) (st2 : Blockchain)
    (hc : CacheOk st) (hcb : st.cached_previous_block = some pb)
    (h : st.get_previous_hash_cached = some (ph, st2)) :
    ph = Blockchain.hash pb ∧ CacheOk st2 := by
  have htop : st.chain.getLast? = some pb := hc.1 pb hcb
  unfold Blockchain.get_previous_hash_cached at h
  split at h
  · rename_i hh hch
    simp only [Option.some.injEq, Prod.mk.injEq] at h
    obtain ⟨rfl, rfl⟩ := h
    obtain ⟨b', hb', rfl⟩ := hc.2 _ hch
    rw [htop] at hb'
    simp only [Option.some.injEq] at hb'
    exact ⟨by rw [hb'], hc⟩
  · rename_i hch
    split at h
    · exact absurd h (by simp)
    · rename_i b st1 hgb
      obtain ⟨htop', hc'⟩ := get_previous_block_top st b st1 hc hgb
      obtain ⟨hf1, _, _, _, _, hf6⟩ := get_previous_block_frame st b st1 hgb
      rw [htop] at htop'
      simp only [Option.some.injEq] at htop'
      simp only [Option.some.injEq, Prod.mk.injEq] at h
      obtain ⟨rfl, rfl⟩ := h
      subst htop'
      refine ⟨rfl, fun b' hb' => hc'.1 b' hb', fun h' hh' => ?_⟩
      simp only [Option.some.injEq] at hh'
      refine ⟨pb, ?_, hh'.symm⟩
      show st1.chain.getLast? = some pb
      rw [hf1, htop]

theorem batch_mine_none (st : Blockchain) (fuel : Nat) (ts : String) (st' : Blockchain)
    (h : st.batch_mine_pending_transactions fuel ts = some (none, st')) :
    st' = st ∧ st.transactions = [] := by
  unfold Blockchain.batch_mine_pending_transactions at h
  split at h
  · rename_i hemp
    simp only [Option.some.injEq, Prod.mk.injEq] at h
    exact ⟨h.2.symm, hemp⟩
  · rename_i hemp
    split at h
    · exact absurd h (by simp)
    · split at h
      · exact absurd h (by simp)
      · split at h
        · exact absurd h (by simp)
        · simp only [Option.some.injEq, Prod.mk.injEq] at h
          exact absurd h.1 (by simp)

theorem batch_mine_out (st : Blockchain) (fuel : Nat) (ts : String) (b : Block) (st' : Blockchain)
    (h : st.batch_mine_pending_transactions fuel ts = some (some b, st')) :
    ∃ pb st1 p ph st2,
      st.transactions ≠ [] ∧
      st.get_previous_block = some (pb, st1) ∧
      st1.proof_of_work fuel pb.proof = some p ∧
      st1.get_previous_hash_cached = some (ph, st2) ∧
      (st2.create_block p ph ts).1 = b ∧ (st2.create_block p ph ts).2 = st' := by
  unfold Blockchain.batch_mine_pending_transactions at h
  split at h
  · simp at h
  · rename_i hemp
    split at h
    · exact absurd h (by simp)
    · rename_i pb st1 hgb
      split at h
      · exact absurd h (by simp)
      · rename_i p hpow
        split at h
        · exact absurd h (by simp)
        · rename_i ph st2 hgph
          simp only [Option.some.injEq, Prod.mk.injEq] at h
          exact ⟨pb, st1, p, ph, st2, hemp, hgb, hpow, hgph, h.1, h.2⟩

theorem reach_init (d : Nat) (ts : String) : ReachInv (Blockchain.init d ts) := by
  refine ⟨⟨⟨1, ts, 1, "0", []⟩, [], ?_, trivial⟩, ?_, ?_⟩
  · simp [Blockchain.init, Blockchain.create_block]
  · intro b hb
    simp [Blockchain.init, Blockchain.create_block] at hb
  · intro hh hhh
    simp [Blockchain.init, Blockchain.create_block] at hhh

theorem reach_add_transaction (st : Blockchain) (sender receiver : String) (amount : Int)
    (m : Option TxMeta) (i : Nat) (st' : Blockchain)
    (hinv : ReachInv st) (h : st.add_transaction sender receiver amount m = some (i, st')) :
    ReachInv st' ∧ st'.chain = st.chain ∧ st'.difficulty = st.difficulty := by
  unfold Blockchain.add_transaction at h
  dsimp only at h
  split at h
  · exact absurd h (by simp)
  · rename_i pb st2 hgb
    simp only [Option.some.injEq, Prod.mk.injEq] at h
    obtain ⟨hi, hst⟩ := h
    obtain ⟨hf1, hf2, hf3, hf4, hf5, hf6⟩ := get_previous_block_frame _ pb st2 hgb
    have hc1 : CacheOk { st with transactions :=
        st.transactions ++ [Blockchain.mkTransaction sender receiver amount m] } := hinv.2
    obtain ⟨_, hc2⟩ := get_previous_block_top _ pb st2 hc1 hgb
    obtain ⟨b0, rest, hch, hlink⟩ := hinv.1
    subst hst
    refine ⟨⟨⟨b0, rest, ?_, ?_⟩, hc2⟩, ?_, ?_⟩
    · rw [hf1]
      exact hch
    · rw [hf3]
      exact hlink
    · rw [hf1]
    · rw [hf3]

theorem reach_batch_mine (st : Blockchain) (fuel : Nat) (ts : String) (ob : Option Block)
    (st' : Blockchain) (hinv : ReachInv st)
    (h : st.batch_mine_pending_transactions fuel ts = some (ob, st')) :
    ReachInv st' := by
  rcases ob with _ | b
  · obtain ⟨rfl, _⟩ := batch_mine_none st fuel ts st' h
    exact hinv
  · obtain ⟨pb, st1, p, ph, st2, hemp, hgb, hpow, hgph, hb, hst⟩ :=
      batch_mine_out st fuel ts b st' h
    obtain ⟨htop, hc1⟩ := get_previous_block_top st pb st1 hinv.2 hgb
    obtain ⟨hf1, hf2, hf3, hf4, hf5, hf6⟩ := get_previous_block_frame st pb st1 hgb
    obtain ⟨hph, hc2⟩ := get_previous_hash_top st1 pb ph st2 hc1 hf6 hgph
    obtain ⟨hg1, hg2, hg3, hg4, hg5⟩ := get_previous_hash_frame st1 ph st2 hgph
    obtain ⟨hpw, _, _⟩ := pow_loop_spec st1.difficulty pb.proof fuel 1 p hpow
    obtain ⟨b0, rest, hch, hlink⟩ := hinv.1
    have hch2 : st2.chain = b0 :: rest := by rw [hg1, hf1, hch]
    have hlastd : rest.getLastD b0 = pb := by
      have hgl := getLast?_cons_eq b0 rest
      rw [← hch, htop] at hgl
      exact (Option.some.inj hgl).symm
    simp only [Blockchain.create_block] at hb hst
    have hlink' : LinkedFrom st.difficulty b0 (rest ++ [b]) := by
      refine LinkedFrom_append st.difficulty rest b0 pb b hlink hlastd ?_ ?_
      · rw [← hb, hph]
      · rw [← hb]
        show Blockchain.pow_ok st.difficulty p pb.proof = true
        rw [← hf3]
        exact hpw
    subst hst
    refine ⟨⟨b0, rest ++ [b], ?_, ?_⟩, ?_, ?_⟩
    · show st2.chain ++ [_] = b0 :: (rest ++ [b])
      rw [hb, hch2]
      rfl
    · show LinkedFrom st2.difficulty b0 (rest ++ [b])
      rw [hg3, hf3]
      exact hlink'
    · intro b' hb'
      simp at hb'
    · intro h' hh'
      simp at hh'

theorem reach_runOps : ∀ (ops : List LedgerOp) (st st' : Blockchain),
    ReachInv st → runOps st ops = some st' → ReachInv st' := by
  intro ops
  induction ops with
  | nil =>
    intro st st' hinv h
    simp only [runOps, Option.some.injEq] at h
    rw [← h]
    exact hinv
  | cons op rest ih =>
    intro st st' hinv h
    simp only [runOps] at h
    rcases hop : runOp st op with _ | st1
    · rw [hop] at h
      exact absurd h (by simp)
    · rw [hop] at h
      refine ih st1 st' ?_ h
      rcases op with ⟨sender, receiver, amount, m⟩ | ⟨fuel, ts⟩
      · simp only [runOp, Option.map_eq_some'] at hop
        obtain ⟨⟨i, stx⟩, hadd, hsnd⟩ := hop
        have := reach_add_transaction st sender receiver amount m i stx hinv hadd
        rw [← hsnd]
        exact this.1
      · simp only [runOp, Option.map_eq_some'] at hop
        obtain ⟨⟨ob, stx⟩, hmine, hsnd⟩ := hop
        have := reach_batch_mine st fuel ts ob stx hinv hmine
        rw [← hsnd]
        exact this

theorem valid_of_reach (st : Blockchain) (h : ReachInv st) :
    st.is_chain_valid st.chain = some true := by
  obtain ⟨⟨b0, rest, hch, hlink⟩, _⟩ := h
  rw [hch]
  show some (Blockchain.valid_loop st.difficulty b0 rest) = some true
  rw [(valid_loop_iff st.difficulty rest b0).mpr hlink]

theorem valid_loop_mutation (d : Nat) :
    ∀ (mid : List Block) (prev b : Block) (post : List Block) (s : String),
      Blockchain.valid_loop d prev (mid ++ b :: post) = true →
      s ≠ b.previous_hash →
      Blockchain.valid_loop d prev (mid ++ { b with previous_hash := s } :: post) = false := by
  intro mid
  induction mid with
  | nil =>
    intro prev b post s hv hs
    simp only [List.nil_append] at hv ⊢
    rw [valid_loop_iff] at hv
    have hne : s ≠ Blockchain.hash prev := by
      rw [← hv.1]
      exact hs
    simp [Blockchain.valid_loop, hne]
  | cons x mid ih =>
    intro prev b post s hv hs
    simp only [List.cons_append] at hv ⊢
    rw [valid_loop_iff] at hv
    have hrec := ih x b post s ((valid_loop_iff d _ x).mpr hv.2.2) hs
    simp [Blockchain.valid_loop, hv.1, hv.2.1, hrec]

/- ## Claim C9 -/

/-- C9: a freshly constructed `Blockchain`, for every difficulty value (and
every construction-time timestamp), has a chain of exactly one block, the
genesis block with `index = 1`, `previous_hash = "0"`, `proof = 1` and an
empty transaction list, and the pending-transaction pool is empty. -/
theorem C9_genesis (d : Nat) (ts : String) :
    (Blockchain.init d ts).chain = [⟨1, ts, 1, "0", []⟩] ∧
    (Blockchain.init d ts).transactions = [] :=
  ⟨rfl, rfl⟩

/- ## Claim C6 -/

/-- C6 counterexample: on the empty candidate chain, `is_chain_valid` does
not return a boolean; `chain[0]` raises `IndexError` (modelled as `none`). -/
theorem C6_counterexample : (Blockchain.init 4 tsW).is_chain_valid [] = none := rfl

/-- C6 (amended): for every NON-empty candidate chain, `is_chain_valid`
returns a boolean rather than raising; being a pure function of the
difficulty and the candidate in this embedding, it mutates neither the
ledger nor the candidate. -/
theorem C6_nonempty_total (st : Blockchain) (chain : List Block) (hne : chain ≠ []) :
    (st.is_chain_valid chain).isSome = true := by
  rcases chain with _ | ⟨b0, rest⟩
  · exact absurd rfl hne
  · rfl

/-- C6 witness: the amended theorem applied to a concrete one-block chain. -/
theorem C6_witness : ((Blockchain.init 4 tsW).is_chain_valid [genesisW]).isSome = true :=
  C6_nonempty_total (Blockchain.init 4 tsW) [genesisW] (by simp)

/- ## Claim C5 -/

/-- C5: with an empty pool, `batch_mine_pending_transactions` is a no-op
returning `None` and leaving the whole state (chain, pool, cache slots)
unchanged; with a nonempty pool, a completed call appends exactly one
block whose transaction list is exactly the pending transactions in
submission order, and leaves the pool empty. -/
theorem C5_batch_mining (st : Blockchain) (fuel : Nat) (ts : String) :
    (st.transactions = [] → st.batch_mine_pending_transactions fuel ts = some (none, st)) ∧
    (∀ b st', st.batch_mine_pending_transactions fuel ts = some (some b, st') →
      st'.chain = st.chain ++ [b] ∧ b.transactions = st.transactions ∧
      st'.transactions = []) := by
  constructor
  · intro hemp
    unfold Blockchain.batch_mine_pending_transactions
    rw [if_pos hemp]
  · intro b st' h
    obtain ⟨pb, st1, p, ph, st2, hemp, hgb, hpow, hgph, hb, hst⟩ :=
      batch_mine_out st fuel ts b st' h
    obtain ⟨hf1, hf2, _, _, _, _⟩ := get_previous_block_frame st pb st1 hgb
    obtain ⟨hg1, hg2, _, _, _⟩ := get_previous_hash_frame st1 ph st2 hgph
    simp only [Blockchain.create_block] at hb hst
    subst hst
    refine ⟨?_, ?_, rfl⟩
    · show st2.chain ++ [_] = st.chain ++ [b]
      rw [hb, hg1, hf1]
    · rw [← hb]
      show st2.transactions = st.transactions
      rw [hg2, hf2]

/-- C5 witness: both halves of the theorem at concrete difficulty-0
states. -/
theorem C5_witness :
    stW'.batch_mine_pending_transactions 1 tsW = some (none, stW') ∧
    stW.batch_mine_pending_transactions 1 tsW2 = some (some blockW, stW') ∧
    stW'.chain = stW.chain ++ [blockW] ∧ blockW.transactions = stW.transactions ∧
    stW'.transactions = [] := by
  have h : stW.batch_mine_pending_transactions 1 tsW2 = some (some blockW, stW') := rfl
  exact ⟨(C5_batch_mining stW' 1 tsW).1 rfl, h, (C5_batch_mining stW 1 tsW2).2 blockW stW' h⟩

/- ## Claim C2 -/

set_option maxRecDepth 20000 in
/-- C2 counterexample: at difficulty 0 and `previous_proof = 14` the
engine returns 1 (and 1 is the smallest accepted candidate), but the hex
digest of `str(1*1 - 14*14) = "-195"` begins with a `'0'` character — it
does not start with exactly zero `'0'` characters as the claim states. -/
theorem C2_counterexample :
    (Blockchain.init 0 tsW).proof_of_work 1 14 = some 1 ∧
    (Blockchain.pow_digest 1 14).take 1 = ['0'] := by
  constructor
  · decide
  · decide

/-- C2 (amended): whenever the linear search returns (fuel models its
unbounded `while` loop), the returned proof is the smallest integer ≥ 1
whose digest begins with AT LEAST `difficulty` `'0'` characters: the
returned proof passes the check, and every smaller candidate ≥ 1 fails
it.  (The digest may begin with more than `difficulty` zeros.) -/
theorem C2_pow_minimal (st : Blockchain) (fuel : Nat) (pp p : Int)
    (h : st.proof_of_work fuel pp = some p) :
    1 ≤ p ∧ Blockchain.pow_ok st.difficulty p pp = true ∧
    (Blockchain.pow_digest p pp).take st.difficulty =
      List.replicate st.difficulty '0' ∧
    ∀ q : Int, 1 ≤ q → q < p → Blockchain.pow_ok st.difficulty q pp = false := by
  obtain ⟨h1, h2, h3⟩ := pow_loop_spec st.difficulty pp fuel 1 p h
  refine ⟨h2, h1, ?_, h3⟩
  simpa [Blockchain.pow_ok] using h1

/-- C2 witness: the amended theorem applied at difficulty 0 and
`previous_proof = 5`. -/
theorem C2_witness :
    Blockchain.pow_ok (Blockchain.init 0 tsW).difficulty 1 5 = true :=
  (C2_pow_minimal (Blockchain.init 0 tsW) 1 5 1 rfl).2.1

/- ## Claim C1 -/

/-- C1 (amended): every chain built solely through the ledger's own
operations (a fresh `Blockchain` followed by any completed sequence of
`add_transaction` / `batch_mine_pending_transactions` calls) validates
with `some true`; and in any chain that validates, changing the
`previous_hash` field of any block OTHER THAN THE FIRST to a different
value makes `is_chain_valid` return `some false`.  Mutations of
transaction fields or proof fields, and of the first block's
`previous_hash`, are not always detected (see the counterexample). -/
theorem C1_build_valid_and_mutation :
    (∀ (d : Nat) (ts0 : String) (ops : List LedgerOp) (st' : Blockchain),
      runOps (Blockchain.init d ts0) ops = some st' →
      st'.is_chain_valid st'.chain = some true) ∧
    (∀ (st : Blockchain) (first : Block) (mid : List Block) (b : Block) (post : List Block)
      (s : String),
      st.is_chain_valid (first :: (mid ++ b :: post)) = some true →
      s ≠ b.previous_hash →
      st.is_chain_valid (first :: (mid ++ { b with previous_hash := s } :: post))
        = some false) := by
  constructor
  · intro d ts0 ops st' h
    exact valid_of_reach st' (reach_runOps ops _ st' (reach_init d ts0) h)
  · intro st first mid b post s hv hs
    have hv' : Blockchain.valid_loop st.difficulty first (mid ++ b :: post) = true :=
      Option.some.inj hv
    have hmut := valid_loop_mutation st.difficulty mid first b post s hv' hs
    show some (Blockchain.valid_loop st.difficulty first (mid ++ _ :: post)) = some false
    rw [hmut]

/-- C1 witness: both halves of the theorem at a concrete difficulty-0 run
(submit one transaction, then mine). -/
theorem C1_witness :
    stW'.is_chain_valid stW'.chain = some true ∧
    stW'.is_chain_valid [genesisW, { blockW with previous_hash := "x" }] = some false := by
  have hbuild : runOps (Blockchain.init 0 tsW)
      [LedgerOp.submit "alice" "bob" 5 none, LedgerOp.mine 1 tsW2] = some stW' := rfl
  have h1 := C1_build_valid_and_mutation.1 0 tsW _ stW' hbuild
  have hs : ("x" : String) ≠ blockW.previous_hash := by
    intro hcontra
    have hl := hash_len genesisW
    rw [show blockW.previous_hash = Blockchain.hash genesisW from rfl] at hcontra
    rw [← hcontra] at hl
    exact absurd hl (by decide)
  have h2 := C1_build_valid_and_mutation.2 stW' genesisW [] blockW [] "x" h1 hs
  exact ⟨h1, h2⟩

/-- C1 counterexample: three single-field mutations the claim says are
always caught, yet `is_chain_valid` still returns true: a transaction
field (`amount` 5 → 6) in the final block, the final block's proof
(1 → 99, difficulty 0), and the genesis block's `previous_hash`
("0" → "1"). -/
theorem C1_counterexample :
    runOps (Blockchain.init 0 tsW) [LedgerOp.submit "alice" "bob" 5 none, LedgerOp.mine 1 tsW2]
      = some stW' ∧
    stW'.chain = [genesisW, blockW] ∧
    stW'.is_chain_valid
      [genesisW, ⟨2, tsW2, 1, Blockchain.hash genesisW, [⟨"alice", "bob", 6, "mining", none⟩]⟩]
      = some true ∧
    stW'.is_chain_valid [genesisW, ⟨2, tsW2, 99, Blockchain.hash genesisW, [txW]⟩]
      = some true ∧
    (Blockchain.init 4 tsW).chain = [genesisW] ∧
    (Blockchain.init 4 tsW).is_chain_valid [⟨1, tsW, 1, "1", []⟩] = some true := by
  refine ⟨rfl, rfl, ?_, ?_, rfl, rfl⟩
  · show some (Blockchain.valid_loop 0 genesisW [_]) = some true
    simp [Blockchain.valid_loop, Blockchain.pow_ok]
  · show some (Blockchain.valid_loop 0 genesisW [_]) = some true
    simp [Blockchain.valid_loop, Blockchain.pow_ok]

/- ## Claim C8 -/

/-- C8 (amended): `create_block` appends exactly one block with
`index = len(chain) + 1` and unconditionally clears both cache slots;
and, provided the two cache slots are empty or consistent with the
current top block (true in every state not produced by `replace_chain`),
a block appended by `batch_mine_pending_transactions` carries
`previous_hash` equal to the hash of the top block at the moment of
mining.  Without the cache proviso this fails (see the counterexample). -/
theorem C8_append_and_previous_hash :
    (∀ (st : Blockchain) (p : Int) (ph ts : String),
      (st.create_block p ph ts).2.chain = st.chain ++ [(st.create_block p ph ts).1] ∧
      (st.create_block p ph ts).2.chain.length = st.chain.length + 1 ∧
      (st.create_block p ph ts).1.index = st.chain.length + 1 ∧
      (st.create_block p ph ts).2.cached_previous_block = none ∧
      (st.create_block p ph ts).2.cached_previous_hash = none) ∧
    (∀ (st : Blockchain) (fuel : Nat) (ts : String) (b : Block) (st' : Blockchain) (top : Block),
      CacheOk st → st.chain.getLast? = some top →
      st.batch_mine_pending_transactions fuel ts = some (some b, st') →
      b.previous_hash = Blockchain.hash top) := by
  constructor
  · intro st p ph ts
    exact ⟨rfl, by simp [Blockchain.create_block], rfl, rfl, rfl⟩
  · intro st fuel ts b st' top hc htop h
    obtain ⟨pb, st1, pf, ph, st2, hemp, hgb, hpow, hgph, hb, hst⟩ :=
      batch_mine_out st fuel ts b st' h
    obtain ⟨htop', hc1⟩ := get_previous_block_top st pb st1 hc hgb
    obtain ⟨_, _, _, _, _, hf6⟩ := get_previous_block_frame st pb st1 hgb
    obtain ⟨hph, _⟩ := get_previous_hash_top st1 pb ph st2 hc1 hf6 hgph
    have hpbtop : pb = top := by
      rw [htop] at htop'
      exact (Option.some.inj htop').symm
    have hbp : b.previous_hash = ph := by
      rw [← hb]
      simp [Blockchain.create_block]
    rw [hbp, hph, hpbtop]

/-- C8 witness: the theorem applied at a concrete difficulty-0 state with
empty cache slots. -/
theorem C8_witness :
    (stW.create_block 1 "x" tsW2).2.chain.length = stW.chain.length + 1 ∧
    (stW.create_block 1 "x" tsW2).1.index = stW.chain.length + 1 ∧
    (stW.create_block 1 "x" tsW2).2.cached_previous_block = none ∧
    (stW.create_block 1 "x" tsW2).2.cached_previous_hash = none ∧
    blockW.previous_hash = Blockchain.hash genesisW := by
  have hc : CacheOk stW := by
    constructor
    · intro b hb
      simp [stW] at hb
    · intro h hh
      simp [stW] at hh
  have hmine := C8_append_and_previous_hash.2 stW 1 tsW2 blockW stW' genesisW hc rfl rfl
  have hcr := C8_append_and_previous_hash.1 stW 1 "x" tsW2
  exact ⟨hcr.2.1, hcr.2.2.1, hcr.2.2.2.1, hcr.2.2.2.2, hmine⟩

/-- C8 counterexample: in a state whose hash-cache slot holds a stale
string, the mined block's `previous_hash` is the stale cached value, not
the hash of the block that is top of the chain at the moment of mining
(C10 shows `replace_chain` produces exactly such stale caches). -/
theorem C8_counterexample :
    stStale.batch_mine_pending_transactions 1 tsW2 =
      some (some ⟨2, tsW2, 1, "stale", [txW]⟩,
            ⟨[genesisW, ⟨2, tsW2, 1, "stale", [txW]⟩], [], 0, [], none, none⟩) ∧
    stStale.chain.getLast? = some genesisW ∧
    ("stale" : String) ≠ Blockchain.hash genesisW := by
  refine ⟨rfl, rfl, fun hcontra => ?_⟩
  have hl := hash_len genesisW
  rw [← hcontra] at hl
  exact absurd hl (by decide)

theorem replace_chain_loop_spec (st : Blockchain) :
    ∀ (resps : List PeerResp) (m : Int) (best r : Option (List Block)),
      st.replace_chain_loop m best resps = some r →
      r = best ∨ ∃ len c, PeerResp.ok 200 len c ∈ resps ∧ m < len ∧
        st.is_chain_valid c = some true ∧ r = some c := by
  intro resps
  induction resps with
  | nil =>
    intro m best r h
    simp only [Blockchain.replace_chain_loop, Option.some.injEq] at h
    exact Or.inl h.symm
  | cons x rest ih =>
    intro m best r h
    rcases x with ⟨status, len, c⟩ | _
    · simp only [Blockchain.replace_chain_loop] at h
      by_cases hs : status = 200
      · rw [if_pos hs] at h
        by_cases hl : len > m
        · rw [if_pos hl] at h
          rcases hv : st.is_chain_valid c with _ | bv
          · rw [hv] at h
            exact absurd h (by simp)
          · rw [hv] at h
            rcases bv with _ | _
            · rcases ih m best r h with h' | ⟨len', c', hmem, hlt, hval, hr⟩
              · exact Or.inl h'
              · exact Or.inr ⟨len', c', List.mem_cons_of_mem _ hmem, hlt, hval, hr⟩
            · subst hs
              rcases ih len (some c) r h with h' | ⟨len', c', hmem, hlt, hval, hr⟩
              · exact Or.inr ⟨len, c, List.mem_cons_self _ _, hl, hv, h'⟩
              · exact Or.inr ⟨len', c', List.mem_cons_of_mem _ hmem, lt_trans hl hlt, hval, hr⟩
        · rw [if_neg hl] at h
          rcases ih m best r h with h' | ⟨len', c', hmem, hlt, hval, hr⟩
          · exact Or.inl h'
          · exact Or.inr ⟨len', c', List.mem_cons_of_mem _ hmem, hlt, hval, hr⟩
      · rw [if_neg hs] at h
        rcases ih m best r h with h' | ⟨len', c', hmem, hlt, hval, hr⟩
        · exact Or.inl h'
        · exact Or.inr ⟨len', c', List.mem_cons_of_mem _ hmem, hlt, hval, hr⟩
    · rw [show Blockchain.replace_chain_loop st m best (PeerResp.err :: rest) = none from rfl] at h
      exact Option.noConfusion h

theorem replace_chain_cases (st : Blockchain) (resps : List PeerResp) :
    ((st.replace_chain resps).1 = some true →
      ∃ c, c ≠ [] ∧ (st.replace_chain resps).2 = { st with chain := c } ∧
        st.replace_chain_loop (st.chain.length : Int) none resps = some (some c)) ∧
    ((st.replace_chain resps).1 = some false → (st.replace_chain resps).2 = st) ∧
    ((st.replace_chain resps).1 = none → (st.replace_chain resps).2 = st) := by
  rcases hloop : st.replace_chain_loop (st.chain.length : Int) none resps with _ | ores
  · have hre : st.replace_chain resps = (none, st) := by
      unfold Blockchain.replace_chain
      rw [hloop]
    rw [hre]
    exact ⟨fun h => absurd h (by simp), fun h => absurd h (by simp), fun _ => rfl⟩
  · rcases ores with _ | c
    · have hre : st.replace_chain resps = (some false, st) := by
        unfold Blockchain.replace_chain
        rw [hloop]
      rw [hre]
      exact ⟨fun h => absurd h (by simp), fun _ => rfl, fun h => absurd h (by simp)⟩
    · by_cases hcnil : c = []
      · have hre : st.replace_chain resps = (some false, st) := by
          unfold Blockchain.replace_chain
          rw [hloop]
          show (if c = [] then ((some false, st) : Option Bool × Blockchain)
                else (some true, { st with chain := c })) = (some false, st)
          rw [if_pos hcnil]
        rw [hre]
        exact ⟨fun h => absurd h (by simp), fun _ => rfl, fun h => absurd h (by simp)⟩
      · have hre : st.replace_chain resps = (some true, { st with chain := c }) := by
          unfold Blockchain.replace_chain
          rw [hloop]
          show (if c = [] then ((some false, st) : Option Bool × Blockchain)
                else (some true, { st with chain := c })) = _
          rw [if_neg hcnil]
        rw [hre]
        exact ⟨fun _ => ⟨c, hcnil, rfl, rfl⟩, fun h => absurd h (by simp),
               fun h => absurd h (by simp)⟩

theorem loop_skip_non200 (st : Blockchain) :
    ∀ (pre : List PeerResp) (m : Int) (best : Option (List Block)) (status : Nat) (len : Int)
      (c : List Block) (post : List PeerResp), status ≠ 200 →
      st.replace_chain_loop m best (pre ++ PeerResp.ok status len c :: post) =
      st.replace_chain_loop m best (pre ++ post) := by
  intro pre
  induction pre with
  | nil =>
    intro m best status len c post hs
    simp only [List.nil_append, Blockchain.replace_chain_loop]
    rw [if_neg hs]
  | cons x rest ih =>
    intro m best status len c post hs
    rcases x with ⟨s', l', c'⟩ | _
    · simp only [List.cons_append, Blockchain.replace_chain_loop]
      by_cases hs' : s' = 200
      · rw [if_pos hs', if_pos hs']
        by_cases hl : l' > m
        · rw [if_pos hl, if_pos hl]
          rcases hv : st.is_chain_valid c' with _ | bv
          · rfl
          · rcases bv with _ | _
            · exact ih m best status len c post hs
            · exact ih l' (some c') status len c post hs
        · rw [if_neg hl, if_neg hl]
          exact ih m best status len c post hs
      · rw [if_neg hs', if_neg hs']
        exact ih m best status len c post hs
    · simp only [List.cons_append, Blockchain.replace_chain_loop]

theorem loop_err (st : Blockchain) :
    ∀ (resps : List PeerResp) (m : Int) (best : Option (List Block)),
      PeerResp.err ∈ resps → st.replace_chain_loop m best resps = none := by
  intro resps
  induction resps with
  | nil =>
    intro m best h
    simp at h
  | cons x rest ih =>
    intro m best h
    rcases x with ⟨s', l', c'⟩ | _
    · have hmem : PeerResp.err ∈ rest := by
        rcases List.mem_cons.mp h with h' | h'
        · exact absurd h' (by simp)
        · exact h'
      simp only [Blockchain.replace_chain_loop]
      by_cases hs' : s' = 200
      · rw [if_pos hs']
        by_cases hl : l' > m
        · rw [if_pos hl]
          rcases hv : st.is_chain_valid c' with _ | bv
          · rfl
          · rcases bv with _ | _
            · exact ih m best hmem
            · exact ih l' (some c') hmem
        · rw [if_neg hl]
          exact ih m best hmem
      · rw [if_neg hs']
        exact ih m best hmem
    · rfl

theorem get_previous_block_cached (st : Blockchain) (b : Block)
    (hcb : st.cached_previous_block = some b) :
    st.get_previous_block = some (b, st) := by
  unfold Blockchain.get_previous_block
  rw [hcb]

theorem add_transaction_cached_index (st : Blockchain) (b : Block)
    (hcb : st.cached_previous_block = some b) (sender receiver : String) (amount : Int)
    (m : Option TxMeta) :
    (st.add_transaction sender receiver amount m).map Prod.fst = some (b.index + 1) := by
  unfold Blockchain.add_transaction
  dsimp only
  rw [get_previous_block_cached
    { st with transactions := st.transactions ++ [Blockchain.mkTransaction sender receiver amount m] }
    b hcb]
  rfl

/- ## Claim C3 -/

/-- C3 (amended): `replace_chain` adopts a candidate only when some peer
responded with status 200, a REPORTED `length` field strictly greater
than the local chain's length, and a chain passing `is_chain_valid`; on a
`False` return (and on an escaped exception) the local state is
unchanged, so it returns `True` exactly when the chain was replaced.
The comparison uses the peer-reported `length`, not the actual candidate
length, so an equal-length or shorter chain CAN be adopted when the peer
misreports its length (see the counterexample). -/
theorem C3_consensus (st : Blockchain) (resps : List PeerResp) :
    ((st.replace_chain resps).1 = some true →
      ∃ len c, PeerResp.ok 200 len c ∈ resps ∧ (st.chain.length : Int) < len ∧
        st.is_chain_valid c = some true ∧
        (st.replace_chain resps).2 = { st with chain := c }) ∧
    ((st.replace_chain resps).1 = some false → (st.replace_chain resps).2 = st) ∧
    ((st.replace_chain resps).1 = none → (st.replace_chain resps).2 = st) := by
  obtain ⟨h1, h2, h3⟩ := replace_chain_cases st resps
  refine ⟨fun ht => ?_, h2, h3⟩
  obtain ⟨c, hcne, hst, hloop⟩ := h1 ht
  rcases replace_chain_loop_spec st resps _ none (some c) hloop with
    h' | ⟨len, c', hmem, hlt, hval, hr⟩
  · exact absurd h' (by simp)
  · obtain rfl : c' = c := (Option.some.inj hr).symm
    exact ⟨len, c', hmem, hlt, hval, hst⟩

/-- C3 witness: the theorem applied to an empty peer list (no adoption,
state unchanged). -/
theorem C3_witness : (stW.replace_chain []).2 = stW :=
  (C3_consensus stW []).2.1 rfl

/-- C3 counterexample: a peer reports `length = 5` but sends a one-block
chain; the local chain also has one block, yet `replace_chain` adopts the
candidate and returns `True` — an equal-length adoption the claim rules
out. -/
theorem C3_counterexample :
    (stW.replace_chain [PeerResp.ok 200 5 [peerBlockW]]).1 = some true ∧
    (stW.replace_chain [PeerResp.ok 200 5 [peerBlockW]]).2.chain = [peerBlockW] ∧
    stW.chain.length = 1 ∧ ([peerBlockW] : List Block).length = 1 :=
  ⟨rfl, rfl, rfl, rfl⟩

/- ## Claim C4 -/

/-- C4 (amended): during `replace_chain`, a peer response with a non-200
status code is skipped without affecting the rest of the pass; but a
fetch that RAISES (connection error or timeout) is NOT caught — there is
no try/except — so it aborts the whole pass with the exception escaping;
in either case the local chain is never modified by the failure. -/
theorem C4_peer_failures :
    (∀ (st : Blockchain) (pre post : List PeerResp) (status : Nat) (len : Int)
      (c : List Block), status ≠ 200 →
      st.replace_chain (pre ++ PeerResp.ok status len c :: post) =
        st.replace_chain (pre ++ post)) ∧
    (∀ (st : Blockchain) (resps : List PeerResp), PeerResp.err ∈ resps →
      st.replace_chain resps = (none, st)) := by
  constructor
  · intro st pre post status len c hs
    unfold Blockchain.replace_chain
    rw [loop_skip_non200 st pre _ _ status len c post hs]
  · intro st resps h
    unfold Blockchain.replace_chain
    rw [loop_err st resps _ _ h]

/-- C4 witness: both halves at concrete inputs — a 404 response is
skipped, and a raising peer aborts the pass with the state unchanged. -/
theorem C4_witness :
    stW.replace_chain [PeerResp.ok 404 5 [peerBlockW]] = stW.replace_chain [] ∧
    stW.replace_chain [PeerResp.err] = (none, stW) := by
  constructor
  · exact C4_peer_failures.1 stW [] [] 404 5 [peerBlockW] (by decide)
  · exact C4_peer_failures.2 stW [PeerResp.err] (by simp)

/-- C4 counterexample: with a raising peer first in the iteration, the
pass aborts (`none`, exception escapes) and the later healthy peer is
never considered — the same healthy peer alone would have been adopted. -/
theorem C4_counterexample :
    stW.replace_chain [PeerResp.err, PeerResp.ok 200 5 [peerBlockW]] = (none, stW) ∧
    stW.replace_chain [PeerResp.ok 200 5 [peerBlockW]] =
      (some true, ⟨[peerBlockW], [txW], 0, [], none, none⟩) :=
  ⟨rfl, rfl⟩

/- ## Claim C10 -/

/-- C10: a successful `replace_chain` mutates only the chain and leaves
both cache slots (and the pool, difficulty and node set) untouched;
consequently, if the cache held the pre-replacement top block, a
subsequent `get_previous_block` still returns that stale block, and
`add_transaction` predicts its index from the stale block rather than
from the adopted chain. -/
theorem C10_replace_chain_stale_cache (st : Blockchain) (resps : List PeerResp)
    (st' : Blockchain) (h : st.replace_chain resps = (some true, st')) :
    st'.cached_previous_block = st.cached_previous_block ∧
    st'.cached_previous_hash = st.cached_previous_hash ∧
    st'.transactions = st.transactions ∧ st'.difficulty = st.difficulty ∧
    st'.nodes = st.nodes ∧
    (∀ b, st.cached_previous_block = some b → st.chain.getLast? = some b →
      st'.get_previous_block = some (b, st') ∧
      (∀ (sender receiver : String) (amount : Int) (m : Option TxMeta),
        (st'.add_transaction sender receiver amount m).map Prod.fst
          = some (b.index + 1))) := by
  obtain ⟨h1, _, _⟩ := replace_chain_cases st resps
  have ht : (st.replace_chain resps).1 = some true := by rw [h]
  obtain ⟨c, hcne, hst, hloop⟩ := h1 ht
  have hst' : st' = { st with chain := c } := by
    rw [h] at hst
    exact hst
  subst hst'
  refine ⟨rfl, rfl, rfl, rfl, rfl, fun b hb _ => ?_⟩
  exact ⟨get_previous_block_cached { st with chain := c } b hb,
         fun sender receiver amount m =>
           add_transaction_cached_index { st with chain := c } b hb sender receiver amount m⟩

/-- C10 witness: the theorem applied to a populated-cache state adopting
a one-block peer chain; the stale genesis block is still returned and
drives the predicted index. -/
theorem C10_witness :
    stCache.replace_chain [PeerResp.ok 200 5 [peerBlockW]] = (some true, stCacheAfter) ∧
    stCacheAfter.cached_previous_block = stCache.cached_previous_block ∧
    stCacheAfter.get_previous_block = some (genesisW, stCacheAfter) ∧
    (stCacheAfter.add_transaction "carol" "dave" 1 none).map Prod.fst
      = some (genesisW.index + 1) := by
  have h : stCache.replace_chain [PeerResp.ok 200 5 [peerBlockW]]
      = (some true, stCacheAfter) := rfl
  obtain ⟨hc1, _, _, _, _, hrest⟩ :=
    C10_replace_chain_stale_cache stCache [PeerResp.ok 200 5 [peerBlockW]] stCacheAfter h
  obtain ⟨hgb, hadd⟩ := hrest genesisW rfl rfl
  exact ⟨h, hc1, hgb, hadd "carol" "dave" 1 none⟩

/- ## Helper lemmas for Claim C7 -/

theorem hexDigit_mem (n : Nat) : hexDigit n ∈ hexTable := by
  have h16 : n % 16 < 16 := Nat.mod_lt _ (by decide)
  have hall : ∀ k, k < 16 → hexTable.getD k '0' ∈ hexTable := by decide
  exact hall (n % 16) h16

theorem wordHex_mem (w : Nat) : ∀ c ∈ wordHex w, c ∈ hexTable := by
  intro c hc
  simp only [wordHex, List.mem_cons, List.not_mem_nil, or_false] at hc
  rcases hc with h | h | h | h | h | h | h | h <;> (subst h; exact hexDigit_mem _)

theorem sha256hex_mem (msg : List Nat) : ∀ c ∈ sha256hex msg, c ∈ hexTable := by
  intro c hc
  simp only [sha256hex, List.mem_append] at hc
  rcases hc with ((((((h | h) | h) | h) | h) | h) | h) | h <;> exact wordHex_mem _ c h

theorem dumps_s (v : String) : dumps (J.s v) = qstr v := by
  simp [dumps]

theorem dumps_i (v : Int) : dumps (J.i v) = pyIntStr v := by
  simp [dumps]

theorem dumps_a (l : List J) :
    dumps (J.a l) = "[" ++ commaJoin (l.map dumps) ++ "]" := by
  rw [dumps]
  rw [List.attach_map_val l dumps]

theorem dumps_o (l : List (String × J)) :
    dumps (J.o l) = "\x7b" ++
      commaJoin ((sortPairs (l.map (fun p => (p.1, dumps p.2)))).map pairStr) ++ "\x7d" := by
  rw [dumps]
  rw [List.attach_map_val l (fun p => (p.1, dumps p.2))]

theorem sortPairs_perm (l : List (String × String)) : (sortPairs l).Perm l :=
  List.perm_insertionSort keyLe l

theorem sortPairs_sorted (l : List (String × String)) : List.Sorted keyLe (sortPairs l) :=
  List.sorted_insertionSort keyLe l

theorem sorted_perm_eq :
    ∀ (l₁ l₂ : List (String × String)), l₁.Perm l₂ →
      List.Sorted keyLe l₁ → List.Sorted keyLe l₂ → (l₁.map Prod.fst).Nodup → l₁ = l₂ := by
  intro l₁
  induction l₁ with
  | nil =>
    intro l₂ hp _ _ _
    exact (List.Perm.eq_nil hp.symm).symm
  | cons a t₁ ih =>
    intro l₂ hp hs₁ hs₂ hnd
    rcases l₂ with _ | ⟨b, t₂⟩
    · exact absurd hp.eq_nil (by simp)
    · have hamem : a ∈ b :: t₂ := hp.subset (List.mem_cons_self a t₁)
      have hbmem : b ∈ a :: t₁ := hp.symm.subset (List.mem_cons_self b t₂)
      have hsort1 : ∀ x ∈ t₁, keyLe a x := (List.sorted_cons.mp hs₁).1
      have hsort2 : ∀ x ∈ t₂, keyLe b x := (List.sorted_cons.mp hs₂).1
      have hab : a.1 = b.1 := by
        rcases List.mem_cons.mp hamem with h' | h'
        · rw [h']
        · rcases List.mem_cons.mp hbmem with h'' | h''
          · rw [h'']
          · exact le_antisymm (hsort1 b h'') (hsort2 a h')
      have hba : b = a := by
        rcases List.mem_cons.mp hbmem with h'' | h''
        · exact h''
        · exfalso
          have hmemkey : a.1 ∈ t₁.map Prod.fst := by
            rw [hab]
            exact List.mem_map_of_mem Prod.fst h''
          simp only [List.map_cons, List.nodup_cons] at hnd
          exact hnd.1 hmemkey
      subst hba
      have hpt : t₁.Perm t₂ := hp.cons_inv
      have htail := ih t₂ hpt (List.sorted_cons.mp hs₁).2 (List.sorted_cons.mp hs₂).2
        (by simp only [List.map_cons, List.nodup_cons] at hnd; exact hnd.2)
      rw [htail]

theorem eqlist_map_dumps (n : Nat)
    (ihn : ∀ x y, sizeOf x < n → EqJ x y → dumps x = dumps y) :
    ∀ (l₁ l₂ : List J), EqJList l₁ l₂ → (∀ x ∈ l₁, sizeOf x < n) →
      l₁.map dumps = l₂.map dumps := by
  intro l₁
  induction l₁ with
  | nil =>
    intro l₂ hf _
    cases hf
    rfl
  | cons x t ihl =>
    intro l₂ hf hsz
    cases hf with
    | cons hxy ht =>
      simp only [List.map_cons]
      rw [ihn x _ (hsz x (by simp)) hxy, ihl _ ht (fun z hz => hsz z (by simp [hz]))]

theorem eqfields_map_dumps (n : Nat)
    (ihn : ∀ x y, sizeOf x < n → EqJ x y → dumps x = dumps y) :
    ∀ (g l₂ : List (String × J)), EqJFields g l₂ → (∀ p ∈ g, sizeOf p.2 < n) →
      g.map (fun p => (p.1, dumps p.2)) = l₂.map (fun p => (p.1, dumps p.2)) := by
  intro g
  induction g with
  | nil =>
    intro l₂ hf _
    cases hf
    rfl
  | cons p t ihg =>
    intro l₂ hf hsz
    obtain ⟨k, v⟩ := p
    cases hf with
    | cons _ hvw ht =>
      simp only [List.map_cons]
      rw [ihn v _ (hsz (k, v) (by simp)) hvw, ihg _ ht (fun q hq => hsz q (by simp [hq]))]

theorem dumps_congr_aux :
    ∀ (n : Nat) (x y : J), sizeOf x < n → EqJ x y → dumps x = dumps y := by
  intro n
  induction n with
  | zero =>
    intro x y hs _
    exact absurd hs (Nat.not_lt_zero _)
  | succ n ih =>
    intro x y hs h
    cases h with
    | s v => rfl
    | i v => rfl
    | a hl =>
      rename_i l₁ l₂
      rw [dumps_a, dumps_a]
      have hsz : ∀ z ∈ l₁, sizeOf z < n := by
        intro z hz
        have h1 := List.sizeOf_lt_of_mem hz
        have h2 : sizeOf (J.a l₁) = 1 + sizeOf l₁ := by simp
        omega
      rw [eqlist_map_dumps n ih l₁ l₂ hl hsz]
    | o g hperm hfields hnodup =>
      rename_i l₁ l₂
      rw [dumps_o, dumps_o]
      have hszv : ∀ p ∈ g, sizeOf p.2 < n := by
        intro p hp
        have hp1 : p ∈ l₁ := hperm.mem_iff.mpr hp
        have h1 := List.sizeOf_lt_of_mem hp1
        have h2 : sizeOf (J.o l₁) = 1 + sizeOf l₁ := by simp
        obtain ⟨k, v⟩ := p
        have h3 : sizeOf ((k, v) : String × J) = 1 + sizeOf k + sizeOf v := by simp
        simp only at h1 ⊢
        omega
      have hmapeq := eqfields_map_dumps n ih g l₂ hfields hszv
      have hperm2 : (l₁.map (fun p => (p.1, dumps p.2))).Perm
          (l₂.map (fun p => (p.1, dumps p.2))) := by
        have hmp := hperm.map (fun p => (p.1, dumps p.2))
        rw [hmapeq] at hmp
        exact hmp
      have hkeys2 : ((l₂.map (fun p => (p.1, dumps p.2))).map Prod.fst).Nodup := by
        rw [List.map_map]
        exact hnodup
      have hnd1 : ((sortPairs (l₁.map (fun p => (p.1, dumps p.2)))).map Prod.fst).Nodup := by
        refine (List.Perm.nodup_iff ?_).mpr hkeys2
        exact ((sortPairs_perm _).trans hperm2).map Prod.fst
      have hsorteq : sortPairs (l₁.map (fun p => (p.1, dumps p.2)))
          = sortPairs (l₂.map (fun p => (p.1, dumps p.2))) := by
        refine sorted_perm_eq _ _ ?_ (sortPairs_sorted _) (sortPairs_sorted _) hnd1
        exact (sortPairs_perm _).trans (hperm2.trans (sortPairs_perm _).symm)
      rw [hsorteq]

theorem dumps_respects_EqJ (x y : J) (h : EqJ x y) : dumps x = dumps y :=
  dumps_congr_aux (sizeOf x + 1) x y (Nat.lt_succ_self _) h

/- ## Claim C7 -/

/-- C7: for any two structurally equal JSON records — the same field
names and values at every nesting level, including inside the transaction
list, regardless of the order in which the fields were inserted (the
`EqJ` relation) — the Canonical Hasher returns the identical digest, the
digest is 64 lowercase hexadecimal characters, and hashing a stored block
goes through exactly this deterministic function (so hashing the same
block twice yields the same digest). -/
theorem C7_hash_deterministic (x y : J) (h : EqJ x y) :
    jsonHash x = jsonHash y ∧ (jsonHash x).length = 64 ∧
    (∀ c ∈ (jsonHash x).data, c ∈ hexTable) ∧
    (∀ b : Block, Blockchain.hash b = jsonHash (blockToJson b)) := by
  refine ⟨?_, ?_, ?_, fun b => rfl⟩
  · unfold jsonHash
    rw [dumps_respects_EqJ x y h]
  · simp [jsonHash, sha256hex, wordHex, String.length]
  · intro c hc
    exact sha256hex_mem _ c hc

/-- C7 witness: the theorem applied to two concrete two-field objects
whose fields were inserted in opposite orders. -/
theorem C7_witness :
    jsonHash (J.o [("b", J.i 1), ("a", J.s "z")])
      = jsonHash (J.o [("a", J.s "z"), ("b", J.i 1)]) := by
  have h : EqJ (J.o [("b", J.i 1), ("a", J.s "z")]) (J.o [("a", J.s "z"), ("b", J.i 1)]) := by
    refine EqJ.o [("a", J.s "z"), ("b", J.i 1)] ?_ ?_ ?_
    · exact List.Perm.swap _ _ _
    · exact EqJFields.cons "a" (EqJ.s "z") (EqJFields.cons "b" (EqJ.i 1) EqJFields.nil)
    · simp
  exact (C7_hash_deterministic _ _ h).1
